import Mathlib

/-!
Verification of the wordle-api guess-evaluation core (`src/main.rs`).

The Rust source is shallowly embedded:
* `MatchType`, `CharMatch`, `Game`, `Answer` mirror the structs/enums of
  `main.rs` (strings are modelled as `List Char`, matching Rust's
  `chars()` views used throughout `evaluate_guess`).
* `evaluate_guess` mirrors `fn evaluate_guess`: pass 1 (perfect matches,
  which indexes `word_chars[i]` and hence can panic when the guess is
  longer than the secret — modelled by `Option`), then pass 2 (partial
  matches via `iter().position`, modelled by `position`).
* `handle_play` mirrors the state-transition part of `fn handle_play`
  after a successful database load: the already-solved idempotent
  response, the vocabulary check, and the `UPDATE game SET goes = goes + 1,
  solved = ?` write.  A panic inside `evaluate_guess` reaches no `UPDATE`,
  so the stored row is unchanged (`PlayOutcome.crashed`).
* `handle_new_game` mirrors the `INSERT` of `fn handle_new_game`
  (`goes = 0`, `solved` defaulting to `0`); the random word pick and the
  UUID are external inputs, so the secret is a parameter.
-/

namespace WordleApi

/-- Rust `enum MatchType { Perfect, Partial, None }`. -/
inductive MatchType : Type where
  | Perfect : MatchType
  | Partial : MatchType
  | None : MatchType
deriving DecidableEq, Repr, Inhabited

/-- Rust `struct CharMatch { index, character, match_type }`. -/
structure CharMatch : Type where
  index : Nat
  character : Char
  match_type : MatchType
deriving DecidableEq, Repr, Inhabited

/-- Rust `struct Game { word, goes, solved }` (the stored row; the
`client` column never influences play). -/
structure Game : Type where
  word : List Char
  goes : Nat
  solved : Bool
deriving DecidableEq, Repr, Inhabited

/-- Rust `struct Answer { solved, answer, guess, goes, evaluation }`. -/
structure Answer : Type where
  solved : Bool
  answer : Option (List Char)
  guess : List Char
  goes : Nat
  evaluation : List CharMatch
deriving DecidableEq, Repr, Inhabited

/-- Rust `iter().position(pred)`: index of the first element satisfying
the predicate. -/
def position (p : Char → Bool) : List Char → Option Nat
  | [] => none
  | x :: xs => if p x then some 0 else (position p xs).map (· + 1)

/-- The initial `evaluation` vector of `evaluate_guess`:
`guess.chars().enumerate().map(|(index, x)| CharMatch { index, character: x,
match_type: MatchType::None })`, with `k` the index of the first entry. -/
def initEval (k : Nat) : List Char → List CharMatch
  | [] => []
  | g :: gs => ⟨k, g, MatchType.None⟩ :: initEval (k + 1) gs

/-- Pass 1 of `evaluate_guess` (perfect matches).  `gs` is the remaining
guess suffix, `i` the current position, `wc` the mutable `word_chars`,
`ev` the mutable `evaluation`, `used` the mutable `guess_chars_used`.
Rust indexes `word_chars[i]`, which panics out of bounds: modelled by
`none`. -/
def pass1 : List Char → Nat → List Char → List CharMatch → List Bool →
    Option (List Char × List CharMatch × List Bool)
  | [], _, wc, ev, used => some (wc, ev, used)
  | g :: gs, i, wc, ev, used =>
    match wc.get? i with
    | Option.none => none
    | Option.some w =>
      if w == g then
        pass1 gs (i + 1) (wc.set i '_') (ev.set i ⟨i, g, MatchType.Perfect⟩)
          (used.set i true)
      else
        pass1 gs (i + 1) wc ev used

/-- Pass 2 of `evaluate_guess` (partial matches).  Skips used guess
positions, searches `word_chars` with `position`, and consumes the found
slot with the sentinel `'_'`. -/
def pass2 : List Char → Nat → List Char → List CharMatch → List Bool →
    List Char × List CharMatch × List Bool
  | [], _, wc, ev, used => (wc, ev, used)
  | g :: gs, i, wc, ev, used =>
    if used.getD i false then
      pass2 gs (i + 1) wc ev used
    else
      match position (fun x => x == g) wc with
      | Option.some wi =>
          pass2 gs (i + 1) (wc.set wi '_') (ev.set i ⟨i, g, MatchType.Partial⟩)
            (used.set i true)
      | Option.none => pass2 gs (i + 1) wc ev used

/-- Rust `fn evaluate_guess(game, guess) -> Answer`.  `none` models the
panic on the out-of-bounds indexing of pass 1. -/
def evaluate_guess (game : Game) (guess : List Char) : Option Answer :=
  match pass1 guess 0 game.word (initEval 0 guess) (guess.map fun _ => false) with
  | Option.none => none
  | Option.some s =>
      some { solved := game.word == guess
             answer := if game.word == guess then some game.word else none
             guess := guess
             goes := game.goes + 1
             evaluation := (pass2 guess 0 s.1 s.2.1 s.2.2).2.1 }

/-- Outcome of one `handle_play` request on a successfully loaded game. -/
inductive PlayOutcome : Type where
  | alreadySolved : Answer → PlayOutcome
  | invalidGuess : PlayOutcome
  | crashed : PlayOutcome
  | evaluated : Answer → PlayOutcome
deriving DecidableEq, Repr, Inhabited

/-- Rust `fn handle_play` after a successful load of the game row:
returns the response outcome together with the stored game row after the
request (`UPDATE game SET goes = goes + 1, solved = ?1` only runs on the
evaluated path; a panic inside `evaluate_guess` aborts the request before
any write). -/
def handle_play (words : List (List Char)) (game : Game) (guess : List Char) :
    PlayOutcome × Game :=
  if game.solved then
    (PlayOutcome.alreadySolved
      { solved := true, answer := some game.word, guess := guess,
        goes := game.goes, evaluation := [] }, game)
  else if words.contains guess then
    match evaluate_guess game guess with
    | Option.none => (PlayOutcome.crashed, game)
    | Option.some a =>
      (PlayOutcome.evaluated a, { game with goes := game.goes + 1, solved := a.solved })
  else
    (PlayOutcome.invalidGuess, game)

/-- Rust `fn handle_new_game`: the `INSERT` writes `goes = 0` and leaves
`solved` at its SQL default `0`.  The randomly chosen secret is an
external input (the answers list is a collaborator), so it is a
parameter. -/
def handle_new_game (secret : List Char) : Game :=
  { word := secret, goes := 0, solved := false }

/-- Iterate `handle_play` over a list of submitted guesses, threading the
stored game row. -/
def playAll (words : List (List Char)) (game : Game) : List (List Char) → Game
  | [] => game
  | g :: gs => playAll words (handle_play words game g).2 gs

/-- Whether a classification counts as a hit (Exact/Perfect or
Present/Partial, i.e. not None/Absent). -/
def isHit : MatchType → Bool
  | MatchType.None => false
  | _ => true

/-- Number of evaluation entries whose guessed character is `c` and whose
classification is Exact or Present. -/
def countMatched (c : Char) : List CharMatch → Nat
  | [] => 0
  | m :: ms =>
    (if m.character == c && isHit m.match_type then 1 else 0) + countMatched c ms

/-- Number of occurrences of the character `c` in a word. -/
def countOcc (c : Char) : List Char → Nat
  | [] => 0
  | x :: xs => (if x == c then 1 else 0) + countOcc c xs

/-- Modelled from the spec: the valid-guess vocabulary file
(`words::FILE_CONTENT`, `src/words.rs`) is not part of the sources.  The
spec describes the vocabulary provider as `is_valid_guess(word_length L,
text)` backed by a fixed word list of words of the fixed length `L`
agreed between secret and guess, so a vocabulary for length `L` contains
only words of length `L`. -/
def VocabularyFor (L : Nat) (words : List (List Char)) : Prop :=
  ∀ w ∈ words, w.length = L

/-! Helper lemmas. -/

theorem contains_iff (words : List (List Char)) (g : List Char) :
    words.contains g = true ↔ g ∈ words := by
  simp

theorem position_some {p : Char → Bool} :
    ∀ (l : List Char) (i : Nat), position p l = some i →
      ∃ x, l.get? i = some x ∧ p x = true := by
  intro l
  induction l with
  | nil => intro i h; simp [position] at h
  | cons x xs ih =>
    intro i h
    cases hp : p x with
    | true =>
      rw [position, hp, if_pos rfl] at h
      cases h
      exact ⟨x, rfl, hp⟩
    | false =>
      rw [position, hp] at h
      simp only [Bool.false_eq_true, if_false, Option.map_eq_some'] at h
      obtain ⟨j, hj, rfl⟩ := h
      obtain ⟨y, hy, hpy⟩ := ih j hj
      exact ⟨y, by simpa using hy, hpy⟩

theorem pass1_total :
    ∀ (gs : List Char) (i : Nat) (wc : List Char) (ev : List CharMatch)
      (used : List Bool), i + gs.length ≤ wc.length →
      ∃ out, pass1 gs i wc ev used = some out := by
  intro gs
  induction gs with
  | nil => intro i wc ev used _; exact ⟨_, rfl⟩
  | cons g gs ih =>
    intro i wc ev used h
    have hi : i < wc.length := by simp at h; omega
    obtain ⟨w, hw⟩ : ∃ w, wc.get? i = some w := by
      cases hwc : wc.get? i with
      | none => rw [List.get?_eq_none] at hwc; omega
      | some w => exact ⟨w, rfl⟩
    cases hcond : (w == g) with
    | true =>
      obtain ⟨out, hout⟩ := ih (i + 1) (wc.set i '_')
        (ev.set i ⟨i, g, MatchType.Perfect⟩) (used.set i true)
        (by simp at h ⊢; omega)
      exact ⟨out, by rw [pass1, hw]; simp [hcond, hout]⟩
    | false =>
      obtain ⟨out, hout⟩ := ih (i + 1) wc ev used (by simp at h ⊢; omega)
      exact ⟨out, by rw [pass1, hw]; simp [hcond, hout]⟩

theorem evaluate_guess_total (game : Game) (guess : List Char)
    (hlen : game.word.length = guess.length) :
    ∃ a, evaluate_guess game guess = some a := by
  obtain ⟨out, hout⟩ :=
    pass1_total guess 0 game.word (initEval 0 guess) (guess.map fun _ => false)
      (by simp [hlen])
  rw [evaluate_guess, hout]
  exact ⟨_, rfl⟩

theorem evaluate_guess_fields {game : Game} {guess : List Char} {a : Answer}
    (h : evaluate_guess game guess = some a) :
    a.solved = (game.word == guess) ∧ a.goes = game.goes + 1 ∧ a.guess = guess := by
  rw [evaluate_guess] at h
  cases hp : pass1 guess 0 game.word (initEval 0 guess) (guess.map fun _ => false) with
  | none => rw [hp] at h; cases h
  | some s => rw [hp] at h; cases h; exact ⟨rfl, rfl, rfl⟩

theorem initEval_length : ∀ (k : Nat) (gs : List Char),
    (initEval k gs).length = gs.length := by
  intro k gs
  induction gs generalizing k with
  | nil => rfl
  | cons g gs ih => simp [initEval, ih]

theorem pass1_preserves :
    ∀ (gs : List Char) (i : Nat) (wc : List Char) (ev : List CharMatch)
      (used : List Bool) (out : List Char × List CharMatch × List Bool),
      pass1 gs i wc ev used = some out →
      ∀ j, j < i →
        out.1.get? j = wc.get? j ∧ out.2.1.get? j = ev.get? j ∧
        out.2.2.get? j = used.get? j := by
  intro gs
  induction gs with
  | nil => intro i wc ev used out h j hj; cases h; exact ⟨rfl, rfl, rfl⟩
  | cons g gs ih =>
    intro i wc ev used out h j hj
    rw [pass1] at h
    cases hw : wc.get? i with
    | none => rw [hw] at h; cases h
    | some w =>
      simp only [hw] at h
      have hne : i ≠ j := (Nat.ne_of_lt hj).symm
      cases hbq : (w == g) with
      | true =>
        rw [hbq, if_pos rfl] at h
        obtain ⟨h1, h2, h3⟩ := ih (i + 1) _ _ _ out h j (Nat.lt_succ_of_lt hj)
        refine ⟨?_, ?_, ?_⟩
        · rw [h1, List.get?_set_ne _ _ hne]
        · rw [h2, List.get?_set_ne _ _ hne]
        · rw [h3, List.get?_set_ne _ _ hne]
      | false =>
        rw [hbq] at h
        simp only [Bool.false_eq_true, if_false] at h
        exact ih (i + 1) _ _ _ out h j (Nat.lt_succ_of_lt hj)

theorem pass1_hits (g : Char) :
    ∀ (gs : List Char) (i : Nat) (wc : List Char) (ev : List CharMatch)
      (used : List Bool) (out : List Char × List CharMatch × List Bool),
      pass1 gs i wc ev used = some out →
      ev.length = i + gs.length → used.length = i + gs.length →
      ∀ j, gs.get? j = some g → wc.get? (i + j) = some g →
        out.2.1.get? (i + j) = some ⟨i + j, g, MatchType.Perfect⟩ ∧
        out.2.2.get? (i + j) = some true := by
  intro gs
  induction gs with
  | nil =>
    intro i wc ev used out h _ _ j hj _
    cases j <;> cases hj
  | cons g0 gs ih =>
    intro i wc ev used out h hev hused j hj hwcj
    rw [pass1] at h
    cases hw : wc.get? i with
    | none => rw [hw] at h; cases h
    | some w =>
      simp only [hw] at h
      cases j with
      | zero =>
        have hg0 : g0 = g := by
          rw [List.get?_cons_zero] at hj
          cases hj
          rfl
        have hww : w = g := by
          rw [Nat.add_zero, hw] at hwcj
          cases hwcj
          rfl
        have hbq : (w == g0) = true := by rw [hww, hg0]; exact beq_self_eq_true g
        rw [hbq, if_pos rfl] at h
        subst hg0
        obtain ⟨_, h2, h3⟩ :=
          pass1_preserves gs (i + 1) _ _ _ out h i (Nat.lt_succ_self i)
        have hilen : i < ev.length := by rw [hev, List.length_cons]; omega
        have hilen2 : i < used.length := by rw [hused, List.length_cons]; omega
        constructor
        · rw [Nat.add_zero, h2, List.get?_set_eq_of_lt _ hilen]
        · rw [Nat.add_zero, h3, List.get?_set_eq_of_lt _ hilen2]
      | succ j' =>
        have hj' : gs.get? j' = some g := by rwa [List.get?_cons_succ] at hj
        have harith : i + (j' + 1) = (i + 1) + j' := by omega
        rw [harith] at hwcj
        cases hbq : (w == g0) with
        | true =>
          rw [hbq, if_pos rfl] at h
          obtain ⟨h1, h2⟩ := ih (i + 1) (wc.set i '_')
            (ev.set i ⟨i, g0, MatchType.Perfect⟩) (used.set i true) out h
            (by rw [List.length_set, hev, List.length_cons]; omega)
            (by rw [List.length_set, hused, List.length_cons]; omega)
            j' hj'
            (by rw [List.get?_set_ne _ _ (by omega : i ≠ (i + 1) + j')]; exact hwcj)
          rw [harith]
          exact ⟨h1, h2⟩
        | false =>
          rw [hbq] at h
          simp only [Bool.false_eq_true, if_false] at h
          obtain ⟨h1, h2⟩ := ih (i + 1) wc ev used out h
            (by rw [hev, List.length_cons]; omega)
            (by rw [hused, List.length_cons]; omega)
            j' hj' hwcj
          rw [harith]
          exact ⟨h1, h2⟩

theorem pass2_keeps :
    ∀ (gs : List Char) (i : Nat) (wc : List Char) (ev : List CharMatch)
      (used : List Bool) (j : Nat), used.get? j = some true →
      (pass2 gs i wc ev used).2.1.get? j = ev.get? j ∧
      (pass2 gs i wc ev used).2.2.get? j = some true := by
  intro gs
  induction gs with
  | nil => intro i wc ev used j hj; exact ⟨rfl, hj⟩
  | cons g gs ih =>
    intro i wc ev used j hj
    rw [pass2]
    cases hu : used.getD i false with
    | true =>
      rw [if_pos rfl]
      exact ih (i + 1) wc ev used j hj
    | false =>
      simp only [Bool.false_eq_true, if_false]
      have hne : i ≠ j := by
        intro he
        subst he
        rw [List.getD_eq_getD_get?, hj] at hu
        cases hu
      cases hpos : position (fun x => x == g) wc with
      | some wi =>
        show (pass2 gs (i + 1) (wc.set wi '_')
            (ev.set i ⟨i, g, MatchType.Partial⟩) (used.set i true)).2.1.get? j
              = ev.get? j ∧ _
        obtain ⟨k1, k2⟩ := ih (i + 1) (wc.set wi '_')
          (ev.set i ⟨i, g, MatchType.Partial⟩) (used.set i true) j
          (by rw [List.get?_set_ne _ _ hne]; exact hj)
        constructor
        · rw [k1, List.get?_set_ne _ _ hne]
        · exact k2
      | none =>
        show (pass2 gs (i + 1) wc ev used).2.1.get? j = ev.get? j ∧ _
        exact ih (i + 1) wc ev used j hj

theorem countMatched_set_le (c : Char) :
    ∀ (ev : List CharMatch) (i : Nat) (m : CharMatch),
      countMatched c (ev.set i m) ≤
        countMatched c ev +
          (if m.character == c && isHit m.match_type then 1 else 0) := by
  intro ev
  induction ev with
  | nil => intro i m; simp [List.set, countMatched]
  | cons e es ih =>
    intro i m
    cases i with
    | zero =>
      show countMatched c (m :: es) ≤ _
      rw [countMatched, countMatched]
      omega
    | succ i' =>
      show countMatched c (e :: es.set i' m) ≤ _
      rw [countMatched, countMatched]
      have := ih i' m
      omega

theorem countOcc_set_le (c x : Char) (hx : (x == c) = false) :
    ∀ (l : List Char) (i : Nat), countOcc c (l.set i x) ≤ countOcc c l := by
  intro l
  induction l with
  | nil => intro i; exact le_refl _
  | cons y ys ih =>
    intro i
    cases i with
    | zero =>
      show countOcc c (x :: ys) ≤ _
      rw [countOcc, countOcc, hx, if_neg Bool.false_ne_true]
      omega
    | succ i' =>
      show countOcc c (y :: ys.set i' x) ≤ _
      rw [countOcc, countOcc]
      have := ih i'
      omega

theorem countOcc_set_drop (c x : Char) (hx : (x == c) = false) :
    ∀ (l : List Char) (i : Nat), l.get? i = some c →
      countOcc c (l.set i x) + 1 ≤ countOcc c l := by
  intro l
  induction l with
  | nil => intro i h; cases h
  | cons y ys ih =>
    intro i h
    cases i with
    | zero =>
      rw [List.get?_cons_zero] at h
      cases h
      show countOcc c (x :: ys) + 1 ≤ countOcc c (c :: ys)
      rw [countOcc, countOcc, hx, if_neg Bool.false_ne_true, beq_self_eq_true,
        if_pos rfl]
      omega
    | succ i' =>
      rw [List.get?_cons_succ] at h
      show countOcc c (y :: ys.set i' x) + 1 ≤ _
      rw [countOcc, countOcc]
      have := ih i' h
      omega

theorem countMatched_initEval (c : Char) :
    ∀ (k : Nat) (gs : List Char), countMatched c (initEval k gs) = 0 := by
  intro k gs
  induction gs generalizing k with
  | nil => rfl
  | cons g gs ih => simp [initEval, countMatched, isHit, ih]

theorem pass1_counts (c : Char) (hc : (('_' : Char) == c) = false) :
    ∀ (gs : List Char) (i : Nat) (wc : List Char) (ev : List CharMatch)
      (used : List Bool) (out : List Char × List CharMatch × List Bool),
      pass1 gs i wc ev used = some out →
      countMatched c out.2.1 + countOcc c out.1 ≤
        countMatched c ev + countOcc c wc := by
  intro gs
  induction gs with
  | nil => intro i wc ev used out h; cases h; exact le_refl _
  | cons g gs ih =>
    intro i wc ev used out h
    rw [pass1] at h
    cases hw : wc.get? i with
    | none => rw [hw] at h; cases h
    | some w =>
      simp only [hw] at h
      cases hbq : (w == g) with
      | false =>
        rw [hbq] at h
        simp only [Bool.false_eq_true, if_false] at h
        exact ih _ _ _ _ out h
      | true =>
        rw [hbq, if_pos rfl] at h
        have hrec := ih _ _ _ _ out h
        have hset := countMatched_set_le c ev i ⟨i, g, MatchType.Perfect⟩
        cases hgc : (g == c) with
        | false =>
          have h1 : countMatched c (ev.set i ⟨i, g, MatchType.Perfect⟩) ≤
              countMatched c ev := by simpa [hgc, isHit] using hset
          have h2 : countOcc c (wc.set i '_') ≤ countOcc c wc :=
            countOcc_set_le c '_' hc wc i
          omega
        | true =>
          have hwg : w = g := beq_iff_eq.1 hbq
          have hgcc : g = c := beq_iff_eq.1 hgc
          have hwc : wc.get? i = some c := by rw [hw, hwg, hgcc]
          have h1 : countMatched c (ev.set i ⟨i, g, MatchType.Perfect⟩) ≤
              countMatched c ev + 1 := by simpa [hgc, isHit] using hset
          have h2 : countOcc c (wc.set i '_') + 1 ≤ countOcc c wc :=
            countOcc_set_drop c '_' hc wc i hwc
          omega

theorem pass2_counts (c : Char) (hc : (('_' : Char) == c) = false) :
    ∀ (gs : List Char) (i : Nat) (wc : List Char) (ev : List CharMatch)
      (used : List Bool),
      countMatched c (pass2 gs i wc ev used).2.1 +
          countOcc c (pass2 gs i wc ev used).1 ≤
        countMatched c ev + countOcc c wc := by
  intro gs
  induction gs with
  | nil => intro i wc ev used; exact le_refl _
  | cons g gs ih =>
    intro i wc ev used
    rw [pass2]
    cases hu : used.getD i false with
    | true =>
      rw [if_pos rfl]
      exact ih (i + 1) wc ev used
    | false =>
      simp only [Bool.false_eq_true, if_false]
      cases hpos : position (fun x => x == g) wc with
      | none =>
        show countMatched c (pass2 gs (i + 1) wc ev used).2.1 +
            countOcc c (pass2 gs (i + 1) wc ev used).1 ≤ _
        exact ih (i + 1) wc ev used
      | some wi =>
        show countMatched c (pass2 gs (i + 1) (wc.set wi '_')
              (ev.set i ⟨i, g, MatchType.Partial⟩) (used.set i true)).2.1 +
            countOcc c (pass2 gs (i + 1) (wc.set wi '_')
              (ev.set i ⟨i, g, MatchType.Partial⟩) (used.set i true)).1 ≤ _
        have hrec := ih (i + 1) (wc.set wi '_')
          (ev.set i ⟨i, g, MatchType.Partial⟩) (used.set i true)
        have hset := countMatched_set_le c ev i ⟨i, g, MatchType.Partial⟩
        obtain ⟨x, hx, hpx⟩ := position_some wc wi hpos
        cases hgc : (g == c) with
        | false =>
          have h1 : countMatched c (ev.set i ⟨i, g, MatchType.Partial⟩) ≤
              countMatched c ev := by simpa [hgc, isHit] using hset
          have h2 : countOcc c (wc.set wi '_') ≤ countOcc c wc :=
            countOcc_set_le c '_' hc wc wi
          omega
        | true =>
          have hxg : x = g := beq_iff_eq.1 hpx
          have hgcc : g = c := beq_iff_eq.1 hgc
          have hwc : wc.get? wi = some c := by rw [hx, hxg, hgcc]
          have h1 : countMatched c (ev.set i ⟨i, g, MatchType.Partial⟩) ≤
              countMatched c ev + 1 := by simpa [hgc, isHit] using hset
          have h2 : countOcc c (wc.set wi '_') + 1 ≤ countOcc c wc :=
            countOcc_set_drop c '_' hc wc wi hwc
          omega

theorem handle_play_evaluated {words : List (List Char)} {game : Game}
    {guess : List Char} {a : Answer} (hs : game.solved = false)
    (hc : words.contains guess = true) (he : evaluate_guess game guess = some a) :
    handle_play words game guess =
      (PlayOutcome.evaluated a,
       { word := game.word, goes := game.goes + 1, solved := a.solved }) := by
  rw [handle_play, if_neg (by simp [hs]), if_pos hc, he]

theorem playAll_nonsolving :
    ∀ (guesses : List (List Char)) (words : List (List Char)) (game : Game),
      game.solved = false →
      (∀ g ∈ guesses, g ∈ words ∧ g.length = game.word.length ∧ g ≠ game.word) →
      (playAll words game guesses).goes = game.goes + guesses.length ∧
      (playAll words game guesses).solved = false ∧
      (playAll words game guesses).word = game.word := by
  intro guesses
  induction guesses with
  | nil => intro words game hs _; exact ⟨by simp [playAll], hs, rfl⟩
  | cons g gs ih =>
    intro words game hs hall
    obtain ⟨hmem, hlen, hne⟩ := hall g (List.mem_cons_self g gs)
    obtain ⟨a, ha⟩ := evaluate_guess_total game g hlen.symm
    have hsolved : a.solved = false := by
      rw [(evaluate_guess_fields ha).1]
      cases hbq : (game.word == g) with
      | false => rfl
      | true => exact absurd (beq_iff_eq.1 hbq).symm hne
    have hstep : handle_play words game g =
        (PlayOutcome.evaluated a,
         { word := game.word, goes := game.goes + 1, solved := a.solved }) :=
      handle_play_evaluated hs ((contains_iff words g).2 hmem) ha
    rw [playAll, hstep]
    obtain ⟨h1, h2, h3⟩ := ih words
      { word := game.word, goes := game.goes + 1, solved := a.solved }
      hsolved (fun g' hg' => hall g' (List.mem_cons_of_mem _ hg'))
    refine ⟨?_, h2, h3⟩
    rw [h1]
    simp
    omega

/-! The claims. -/

/-- C1: for every secret word and guess of equal length, the evaluation's
`solved` flag is true if and only if the guess equals the secret
character-for-character; the flag is computed as whole-word equality,
independently of the per-character classifications. -/
theorem C1_solved_iff_guess_eq_secret (game : Game) (guess : List Char)
    (a : Answer) (hlen : game.word.length = guess.length)
    (ha : evaluate_guess game guess = some a) :
    a.solved = true ↔ guess = game.word := by
  rw [(evaluate_guess_fields ha).1]
  simp only [beq_iff_eq]
  exact eq_comm

/-- Witness for C1 at secret "ab", guess "ab". -/
theorem C1_witness :
    ((evaluate_guess { word := ['a', 'b'], goes := 0, solved := false }
        ['a', 'b']).getD default).solved = true
      ↔ ['a', 'b'] = Game.word { word := ['a', 'b'], goes := 0, solved := false } :=
  C1_solved_iff_guess_eq_secret _ _ _ (by decide) (by decide)

/-- C2: for every secret word and guess of equal length and every position
`i`, if the guessed character equals the secret's character at `i`, the
classification produced at `i` is Exact (`Perfect`), never Present or
Absent: pass 1 claims the position and pass 2 never overwrites a used
position. -/
theorem C2_exact_never_downgraded (game : Game) (guess : List Char)
    (a : Answer) (i : Nat) (g : Char)
    (hlen : game.word.length = guess.length)
    (ha : evaluate_guess game guess = some a)
    (hg : guess.get? i = some g) (hw : game.word.get? i = some g) :
    a.evaluation.get? i = some ⟨i, g, MatchType.Perfect⟩ := by
  rw [evaluate_guess] at ha
  cases hp : pass1 guess 0 game.word (initEval 0 guess) (guess.map fun _ => false) with
  | none => rw [hp] at ha; cases ha
  | some s =>
    rw [hp] at ha
    cases ha
    show (pass2 guess 0 s.1 s.2.1 s.2.2).2.1.get? i = some ⟨i, g, MatchType.Perfect⟩
    obtain ⟨h1, h2⟩ := pass1_hits g guess 0 game.word (initEval 0 guess)
      (guess.map fun _ => false) s hp
      (by rw [initEval_length]; omega)
      (by rw [List.length_map]; omega)
      i hg (by rw [Nat.zero_add]; exact hw)
    rw [Nat.zero_add] at h1 h2
    obtain ⟨k1, k2⟩ := pass2_keeps guess 0 s.1 s.2.1 s.2.2 i h2
    rw [k1, h1]

/-- Witness for C2: secret "ab", guess "ac", position 0. -/
theorem C2_witness :
    ((evaluate_guess { word := ['a', 'b'], goes := 0, solved := false }
        ['a', 'c']).getD default).evaluation.get? 0 =
      some ⟨0, 'a', MatchType.Perfect⟩ :=
  C2_exact_never_downgraded { word := ['a', 'b'], goes := 0, solved := false }
    ['a', 'c']
    ((evaluate_guess { word := ['a', 'b'], goes := 0, solved := false }
      ['a', 'c']).getD default)
    0 'a' (by decide) (by decide) (by decide) (by decide)

/-- C3 counterexample: for secret "ab" and guess "a_" (equal length), the
guess position holding the character `'_'` is classified Present
(`Partial`), yet `'_'` occurs zero times in the secret: pass 2's pool
search matches the sentinel `'_'` written by pass 1, so the claimed bound
fails for the character value `'_'`. -/
theorem C3_counterexample :
    evaluate_guess { word := ['a', 'b'], goes := 0, solved := false } ['a', '_'] =
      some { solved := false, answer := none, guess := ['a', '_'], goes := 1,
             evaluation := [⟨0, 'a', MatchType.Perfect⟩,
                            ⟨1, '_', MatchType.Partial⟩] }
    ∧ countOcc '_' ['a', 'b'] = 0
    ∧ countMatched '_'
        [(⟨0, 'a', MatchType.Perfect⟩ : CharMatch),
         ⟨1, '_', MatchType.Partial⟩] = 1 :=
  ⟨rfl, rfl, rfl⟩

/-- C3 (amended): for every secret word and guess of equal length and
every character value `c` other than the sentinel `'_'`, the number of
guess positions holding `c` that are classified Exact or Present never
exceeds the number of occurrences of `c` in the secret word. -/
theorem C3_hit_count_le_occurrences (game : Game) (guess : List Char)
    (a : Answer) (c : Char) (hc : c ≠ '_')
    (hlen : game.word.length = guess.length)
    (ha : evaluate_guess game guess = some a) :
    countMatched c a.evaluation ≤ countOcc c game.word := by
  have hcb : (('_' : Char) == c) = false := by
    cases hcc : (('_' : Char) == c) with
    | false => rfl
    | true => exact absurd (beq_iff_eq.1 hcc).symm hc
  rw [evaluate_guess] at ha
  cases hp : pass1 guess 0 game.word (initEval 0 guess) (guess.map fun _ => false) with
  | none => rw [hp] at ha; cases ha
  | some s =>
    rw [hp] at ha
    cases ha
    show countMatched c (pass2 guess 0 s.1 s.2.1 s.2.2).2.1 ≤ countOcc c game.word
    have h2 := pass2_counts c hcb guess 0 s.1 s.2.1 s.2.2
    have h1 := pass1_counts c hcb guess 0 game.word (initEval 0 guess)
      (guess.map fun _ => false) s hp
    have h0 := countMatched_initEval c 0 guess
    omega

/-- Witness for C3 (amended) at secret "ab", guess "aa", character 'a'. -/
theorem C3_witness :
    countMatched 'a'
      ((evaluate_guess { word := ['a', 'b'], goes := 0, solved := false }
        ['a', 'a']).getD default).evaluation ≤ countOcc 'a' ['a', 'b'] :=
  C3_hit_count_le_occurrences { word := ['a', 'b'], goes := 0, solved := false }
    ['a', 'a']
    ((evaluate_guess { word := ['a', 'b'], goes := 0, solved := false }
      ['a', 'a']).getD default)
    'a' (by decide) (by decide) (by decide)

/-- C4: the evaluation reproduces the spec's concrete scenarios: secret
"mower" with guess "owler" classifies as [Present, Present, Absent, Exact,
Exact], and secret "llama" with guess "allan" classifies as [Present,
Exact, Present, Present, Absent] (the source names Exact `Perfect`,
Present `Partial` and Absent `None`). -/
theorem C4_concrete_scenarios :
    (evaluate_guess { word := ['m', 'o', 'w', 'e', 'r'], goes := 0, solved := false }
        ['o', 'w', 'l', 'e', 'r']).map (fun a => a.evaluation.map CharMatch.match_type)
      = some [MatchType.Partial, MatchType.Partial, MatchType.None,
              MatchType.Perfect, MatchType.Perfect]
    ∧ (evaluate_guess { word := ['l', 'l', 'a', 'm', 'a'], goes := 0, solved := false }
        ['a', 'l', 'l', 'a', 'n']).map (fun a => a.evaluation.map CharMatch.match_type)
      = some [MatchType.Partial, MatchType.Perfect, MatchType.Partial,
              MatchType.Partial, MatchType.None] := by
  constructor <;> rfl

/-- C5: submitting any guess to a game whose `solved` flag is already true
is idempotent: the stored row is unchanged and the response carries
`solved = true`, the revealed secret word, the unchanged attempt count and
an empty classification sequence. -/
theorem C5_already_solved_idempotent (words : List (List Char)) (game : Game)
    (guess : List Char) (h : game.solved = true) :
    handle_play words game guess =
      (PlayOutcome.alreadySolved
        { solved := true, answer := some game.word, guess := guess,
          goes := game.goes, evaluation := [] }, game) := by
  rw [handle_play, if_pos h]

/-- Witness for C5 at a solved game with two prior attempts. -/
theorem C5_witness :
    handle_play [['a', 'b']] { word := ['a', 'b'], goes := 2, solved := true }
        ['x', 'y'] =
      (PlayOutcome.alreadySolved
        { solved := true, answer := some ['a', 'b'], guess := ['x', 'y'],
          goes := 2, evaluation := [] },
       { word := ['a', 'b'], goes := 2, solved := true }) :=
  C5_already_solved_idempotent _ _ _ rfl

/-- C6: for an unsolved game, a guess that is not in the valid-guess
vocabulary, or whose length does not match the secret word's length, fails
with InvalidGuess and leaves the stored game unchanged.  The vocabulary
list itself (`src/words.rs`) is absent from the sources and is modelled
from the spec through `VocabularyFor`. -/
theorem C6_invalid_guess_rejected (words : List (List Char)) (game : Game)
    (guess : List Char) (hvoc : VocabularyFor game.word.length words)
    (hs : game.solved = false)
    (hbad : guess ∉ words ∨ guess.length ≠ game.word.length) :
    handle_play words game guess = (PlayOutcome.invalidGuess, game) := by
  have hnot : guess ∉ words := by
    rcases hbad with h | h
    · exact h
    · exact fun hm => h (hvoc guess hm)
  have hc : ¬ words.contains guess = true := fun habs =>
    hnot ((contains_iff words guess).1 habs)
  rw [handle_play, if_neg (by simp [hs]), if_neg hc]

/-- Witness for C6: guess "zz" against secret "cd" with vocabulary
{"ab"}. -/
theorem C6_witness :
    handle_play [['a', 'b']] { word := ['c', 'd'], goes := 0, solved := false }
        ['z', 'z'] =
      (PlayOutcome.invalidGuess, { word := ['c', 'd'], goes := 0, solved := false }) :=
  C6_invalid_guess_rejected _ _ _ (by unfold VocabularyFor; decide) rfl
    (Or.inl (by decide))

/-- C9: both operations preserve the invariant that a solved game has at
least one attempt: a fresh game is unsolved, and a play step either leaves
the row unchanged or writes `goes + 1 ≥ 1`. -/
theorem C9_invariant_preserved (words : List (List Char)) (secret : List Char)
    (game : Game) (guess : List Char) :
    ((handle_new_game secret).solved = true → 1 ≤ (handle_new_game secret).goes)
    ∧ ((game.solved = true → 1 ≤ game.goes) →
        (handle_play words game guess).2.solved = true →
        1 ≤ (handle_play words game guess).2.goes) := by
  constructor
  · intro h; cases h
  · intro hinv
    cases hs : game.solved with
    | true => rw [handle_play, if_pos hs]; exact fun _ => hinv hs
    | false =>
      rw [handle_play, if_neg (by simp [hs])]
      cases hc : words.contains guess with
      | false => rw [if_neg (by simp)]; exact hinv
      | true =>
        rw [if_pos rfl]
        cases he : evaluate_guess game guess with
        | none => exact hinv
        | some a =>
          intro _
          show 1 ≤ game.goes + 1
          omega

/-- Witness for C9 on a solved game with one attempt. -/
theorem C9_witness :
    1 ≤ (handle_play [['a']] { word := ['a'], goes := 1, solved := true } ['a']).2.goes :=
  (C9_invariant_preserved [['a']] ['a']
      { word := ['a'], goes := 1, solved := true } ['a']).2 (by decide) (by decide)

/-- C10: under the precondition that the guess has the secret's length,
every index into the secret's character array is in bounds: pass 1 never
reaches its out-of-bounds branch, so the evaluation returns a result, and
the pool position found by pass 2's search is always within the pool. -/
theorem C10_indices_in_bounds :
    (∀ (game : Game) (guess : List Char), game.word.length = guess.length →
      ∃ a, evaluate_guess game guess = some a)
    ∧ (∀ (p : Char → Bool) (l : List Char) (i : Nat),
        position p l = some i → i < l.length) := by
  constructor
  · exact fun game guess h => evaluate_guess_total game guess h
  · intro p l i h
    obtain ⟨x, hx, _⟩ := position_some l i h
    obtain ⟨hlt, _⟩ := List.get?_eq_some.1 hx
    exact hlt

/-- Witness for C10: evaluation of guess "ba" against secret "ab" returns
a result. -/
theorem C10_witness :
    ∃ a, evaluate_guess { word := ['a', 'b'], goes := 0, solved := false }
        ['b', 'a'] = some a :=
  C10_indices_in_bounds.1 _ _ (by decide)

/-- C7: a freshly created game has attempt count 0; every evaluated
(valid, non-idempotent) submission writes attempt count `prior + 1` and
reports `prior + 1` in the response; hence after exactly `k` non-solving
valid submissions the stored attempt count is `k`. -/
theorem C7_attempt_counting (words : List (List Char)) (secret : List Char)
    (guesses : List (List Char)) :
    (handle_new_game secret).goes = 0
    ∧ (∀ (game : Game) (guess : List Char) (a : Answer), game.solved = false →
        words.contains guess = true → evaluate_guess game guess = some a →
        (handle_play words game guess).2.goes = game.goes + 1 ∧
        a.goes = game.goes + 1)
    ∧ ((∀ g ∈ guesses, g ∈ words ∧ g.length = secret.length ∧ g ≠ secret) →
        (playAll words (handle_new_game secret) guesses).goes = guesses.length) := by
  refine ⟨rfl, ?_, ?_⟩
  · intro game guess a hs hc ha
    rw [handle_play_evaluated hs hc ha]
    exact ⟨rfl, (evaluate_guess_fields ha).2.1⟩
  · intro hall
    have h := playAll_nonsolving guesses words (handle_new_game secret) rfl
      (fun g hg => hall g hg)
    rw [h.1]
    simp [handle_new_game]

/-- Witness for C7: one non-solving valid guess "ba" against secret
"ab" leaves the stored attempt count at 1. -/
theorem C7_witness :
    (playAll [['b', 'a']] (handle_new_game ['a', 'b']) [['b', 'a']]).goes = 1 :=
  (C7_attempt_counting [['b', 'a']] ['a', 'b'] [['b', 'a']]).2.2 (by decide)

/-- C8: the solved flag starts false at creation, and for an unsolved game
a submission turns it true exactly when the (vocabulary-accepted) guess
equals the secret word; from a solved game no submission leaves the solved
state. -/
theorem C8_solved_lifecycle (words : List (List Char)) (secret : List Char)
    (game : Game) (guess : List Char) :
    (handle_new_game secret).solved = false
    ∧ (game.solved = false →
        ((handle_play words game guess).2.solved = true ↔
          guess ∈ words ∧ guess = game.word))
    ∧ (game.solved = true → (handle_play words game guess).2.solved = true) := by
  refine ⟨rfl, ?_, ?_⟩
  · intro hs
    cases hc : words.contains guess with
    | false =>
      rw [handle_play, if_neg (by simp [hs]),
        if_neg (show ¬ words.contains guess = true by rw [hc]; exact Bool.false_ne_true)]
      show game.solved = true ↔ guess ∈ words ∧ guess = game.word
      rw [hs]
      simp only [Bool.false_eq_true, false_iff, not_and]
      intro hm _
      exact absurd ((contains_iff words guess).2 hm)
        (by rw [hc]; exact Bool.false_ne_true)
    | true =>
      rw [handle_play, if_neg (by simp [hs]), if_pos hc]
      cases he : evaluate_guess game guess with
      | none =>
        show game.solved = true ↔ guess ∈ words ∧ guess = game.word
        rw [hs]
        simp only [Bool.false_eq_true, false_iff, not_and]
        intro _ heq
        subst heq
        obtain ⟨a, ha⟩ := evaluate_guess_total game game.word rfl
        rw [ha] at he
        cases he
      | some a =>
        show a.solved = true ↔ guess ∈ words ∧ guess = game.word
        rw [(evaluate_guess_fields he).1]
        simp only [beq_iff_eq]
        constructor
        · exact fun h => ⟨(contains_iff words guess).1 hc, h.symm⟩
        · exact fun h => h.2.symm
  · intro hs
    rw [handle_play, if_pos hs]
    exact hs

/-- Witness for C8: a solving submission on an unsolved game, and any
submission on a solved game. -/
theorem C8_witness :
    ((handle_play [['a', 'b']] { word := ['a', 'b'], goes := 0, solved := false }
        ['a', 'b']).2.solved = true ↔
      ['a', 'b'] ∈ [[('a' : Char), 'b']] ∧
        ['a', 'b'] = Game.word { word := ['a', 'b'], goes := 0, solved := false })
    ∧ (handle_play [['a', 'b']] { word := ['a', 'b'], goes := 3, solved := true }
        ['z', 'z']).2.solved = true :=
  ⟨(C8_solved_lifecycle [['a', 'b']] ['a', 'b']
      { word := ['a', 'b'], goes := 0, solved := false } ['a', 'b']).2.1 rfl,
   (C8_solved_lifecycle [['a', 'b']] ['a', 'b']
      { word := ['a', 'b'], goes := 3, solved := true } ['z', 'z']).2.2 rfl⟩

end WordleApi
